import Mathlib

/-!
Verification of the railchess AARC→RC converter core
(`src/converter.cc`, `src/geometry.cc`, `src/rc.cc`).

The C++ code is shallowly embedded: `std::unordered_map` containers are
modelled as association lists carrying one concrete iteration order,
machine `int` becomes `Int` (no arithmetic here approaches 2^31),
`double` positions become `ℚ` (the geometric predicate used by the
enumerator, `can_move_through`, is exact on the rational inputs we
consider), and the unbounded `while` loops of the BFS enumerator receive
an explicit fuel argument, returning `none` when the fuel runs out, so a
`some` result is exactly a terminating run of the C++ loop.
-/

namespace RailchessRC

/-- An RC output line (`rc.h`: `rc::Line`): id, station sequence, loop flag. -/
structure RcLine where
  id : Int
  station_ids : List Int
  is_loop : Bool
deriving Repr, DecidableEq

/-- Models `std::unordered_map<int, rc::Line>` in one concrete iteration order. -/
abbrev LineMap := List (Int × RcLine)

/-- The serializer `rc::Map::to_json` (`rc.cc`) emits `IsNotLoop = !line.is_loop`
for every output line. -/
def serialized_is_not_loop (l : RcLine) : Bool := !l.is_loop

/-- The `is_subroute` lambda inside `remove_duplicate_lines` (`converter.cc`):
`a` is a nonempty, strictly shorter contiguous window of `b`. -/
def is_subroute (a b : List Int) : Bool :=
  if a.isEmpty then false
  else if b.length ≤ a.length then false
  else (List.range (b.length - a.length + 1)).any fun i => ((b.drop i).take a.length) == a

/-- The identical-lines test of `remove_duplicate_lines`: equal sizes and
`A == B` or `A == reverse B`. -/
def same_or_rev (a b : List Int) : Bool :=
  a.length == b.length && (a == b || a == b.reverse)

/-- Entry `A` is erased in favour of entry `B` during the deduplication pass:
either the sequences are identical or reversed and `A` has the larger id
(`it->first > it2->first`), or `A` (directly or against `reverse B`) is a
strict subroute of `B`. -/
def dominates (A B : Int × RcLine) : Bool :=
  (same_or_rev A.2.station_ids B.2.station_ids && decide (B.1 < A.1))
  || is_subroute A.2.station_ids B.2.station_ids
  || is_subroute A.2.station_ids B.2.station_ids.reverse

/-- One traversal of `remove_duplicate_lines` (`converter.cc` lines 74-110):
the outer iterator walks `todo`; `done` holds the entries already visited and
kept; an entry is erased exactly when some other currently present entry
dominates it (the C++ inner loop breaks at the first such entry; only the
visited entry itself is ever erased, so the effect is the same). -/
def dedup_go (done todo : LineMap) : LineMap :=
  match todo with
  | [] => done
  | A :: rest =>
    if (done ++ rest).any (fun B => dominates A B) then dedup_go done rest
    else dedup_go (done ++ [A]) rest

/-- `remove_duplicate_lines` (`converter.cc`): a full pass over the container. -/
def remove_duplicate_lines (lines : LineMap) : LineMap := dedup_go [] lines

/-- Entry `A` is dominated by some member of `L`. -/
def Dominated (A : Int × RcLine) (L : LineMap) : Prop := ∃ B ∈ L, dominates A B = true

instance (A : Int × RcLine) (L : LineMap) : Decidable (Dominated A L) := by
  unfold Dominated; infer_instance

/-! ### Semantics of the deduplication predicates -/

theorem is_subroute_iff {a b : List Int} :
    is_subroute a b = true ↔ a ≠ [] ∧ a.length < b.length ∧ a <:+: b := by
  unfold is_subroute
  by_cases hae : a.isEmpty
  · simp [hae, List.isEmpty_iff.mp hae]
  · rw [if_neg (by simp [hae])]
    have hane : a ≠ [] := by simpa [List.isEmpty_iff] using hae
    by_cases hlen : b.length ≤ a.length
    · simp [hlen, Nat.not_lt.mpr hlen]
    · rw [if_neg (by simp [hlen])]
      push_neg at hlen
      simp only [List.any_eq_true, List.mem_range, beq_iff_eq]
      constructor
      · rintro ⟨i, _, hwin⟩
        refine ⟨hane, hlen, ?_⟩
        have h1 : (b.drop i).take a.length <:+: b := by
          refine ⟨b.take i, (b.drop i).drop a.length, ?_⟩
          rw [List.append_assoc, List.take_append_drop, List.take_append_drop]
        rwa [hwin] at h1
      · rintro ⟨-, -, s, t, hst⟩
        refine ⟨s.length, ?_, ?_⟩
        · have : b.length = s.length + a.length + t.length := by
            rw [← hst]; simp [Nat.add_assoc]
          omega
        · have hdrop : b.drop s.length = a ++ t := by
            rw [← hst, List.append_assoc, List.drop_left]
          rw [hdrop, List.take_left]

theorem same_or_rev_iff {a b : List Int} :
    same_or_rev a b = true ↔ a = b ∨ a = b.reverse := by
  unfold same_or_rev
  constructor
  · intro h
    simp only [Bool.and_eq_true, beq_iff_eq, Bool.or_eq_true] at h
    tauto
  · intro h
    rcases h with h | h
    · simp [h]
    · simp [h]

/-- Sequence-level strict-subroute relation, reversal allowed on either side. -/
def SubSeq (a b : List Int) : Prop :=
  a ≠ [] ∧ a.length < b.length ∧ (a <:+: b ∨ a <:+: b.reverse)

theorem dominates_iff {A B : Int × RcLine} :
    dominates A B = true ↔
      ((A.2.station_ids = B.2.station_ids ∨ A.2.station_ids = B.2.station_ids.reverse)
        ∧ B.1 < A.1)
      ∨ SubSeq A.2.station_ids B.2.station_ids := by
  unfold dominates SubSeq
  simp only [Bool.or_eq_true, Bool.and_eq_true, decide_eq_true_eq, same_or_rev_iff,
    is_subroute_iff, List.length_reverse]
  constructor
  · rintro ((⟨h1, h2⟩ | ⟨h1, h2, h3⟩) | ⟨h1, h2, h3⟩)
    · exact Or.inl ⟨h1, h2⟩
    · exact Or.inr ⟨h1, h2, Or.inl h3⟩
    · exact Or.inr ⟨h1, h2, Or.inr h3⟩
  · rintro (⟨h1, h2⟩ | ⟨h1, h2, h3 | h3⟩)
    · exact Or.inl (Or.inl ⟨h1, h2⟩)
    · exact Or.inl (Or.inr ⟨h1, h2, h3⟩)
    · exact Or.inr ⟨h1, h2, h3⟩

theorem dominates_irrefl (A : Int × RcLine) : dominates A A = false := by
  rw [Bool.eq_false_iff]
  intro h
  rcases dominates_iff.mp h with ⟨-, hlt⟩ | ⟨-, hlt, -⟩
  · exact lt_irrefl _ hlt
  · simp at hlt

theorem reverse_isInfix_reverse {a b : List Int} (h : a <:+: b) :
    a.reverse <:+: b.reverse := by
  obtain ⟨s, t, hst⟩ := h
  exact ⟨t.reverse, s.reverse, by rw [← hst]; simp⟩

theorem SubSeq.trans_infix {a b c : List Int} (h1 : SubSeq a b) (h2 : SubSeq b c) :
    SubSeq a c := by
  obtain ⟨ha, hab, h1⟩ := h1
  obtain ⟨-, hbc, h2⟩ := h2
  refine ⟨ha, lt_trans hab hbc, ?_⟩
  rcases h1 with h1 | h1 <;> rcases h2 with h2 | h2
  · exact Or.inl (h1.trans h2)
  · exact Or.inr (h1.trans h2)
  · exact Or.inr (h1.trans (reverse_isInfix_reverse h2))
  · have := reverse_isInfix_reverse h2
    rw [List.reverse_reverse] at this
    exact Or.inl (h1.trans this)

theorem SubSeq.congr_left {a b c : List Int}
    (hab : a = b ∨ a = b.reverse) (h : SubSeq b c) : SubSeq a c := by
  obtain ⟨hb, hbc, h⟩ := h
  rcases hab with rfl | rfl
  · exact ⟨hb, hbc, h⟩
  · refine ⟨by simpa using hb, by simpa using hbc, ?_⟩
    rcases h with h | h
    · exact Or.inr (reverse_isInfix_reverse h)
    · have := reverse_isInfix_reverse h
      rw [List.reverse_reverse] at this
      exact Or.inl this

theorem SubSeq.congr_right {a b c : List Int}
    (h : SubSeq a b) (hbc : b = c ∨ b = c.reverse) : SubSeq a c := by
  obtain ⟨ha, hab, h⟩ := h
  rcases hbc with rfl | rfl
  · exact ⟨ha, hab, h⟩
  · refine ⟨ha, by simpa using hab, ?_⟩
    rcases h with h | h
    · exact Or.inr h
    · exact Or.inl (by simpa using h)

theorem eq_or_rev_trans {a b c : List Int}
    (h1 : a = b ∨ a = b.reverse) (h2 : b = c ∨ b = c.reverse) :
    a = c ∨ a = c.reverse := by
  rcases h1 with rfl | rfl <;> rcases h2 with rfl | rfl <;> simp

theorem dominates_trans {A B C : Int × RcLine}
    (h1 : dominates A B = true) (h2 : dominates B C = true) :
    dominates A C = true := by
  rw [dominates_iff] at h1 h2 ⊢
  rcases h1 with ⟨hseq1, hid1⟩ | hsub1 <;> rcases h2 with ⟨hseq2, hid2⟩ | hsub2
  · exact Or.inl ⟨eq_or_rev_trans hseq1 hseq2, lt_trans hid2 hid1⟩
  · exact Or.inr (SubSeq.congr_left hseq1 hsub2)
  · exact Or.inr (SubSeq.congr_right hsub1 hseq2)
  · exact Or.inr (hsub1.trans_infix hsub2)

/-! ### The deduplication pass keeps exactly the non-dominated entries -/

/-- Rank used to locate a maximal dominator: entries with longer station
sequences rank higher; among equal lengths, entries with smaller ids rank
higher (counted as the number of strictly larger ids present). -/
def rankOf (L : LineMap) (B : Int × RcLine) : ℕ :=
  2 * (L.length + 1) * B.2.station_ids.length + L.countP (fun C => decide (B.1 < C.1))

theorem countP_lt_countP_of_mem {α : Type} {p q : α → Bool} {l : List α} {a : α}
    (ha : a ∈ l) (hpa : p a = false) (hqa : q a = true)
    (himp : ∀ x, p x = true → q x = true) : l.countP p < l.countP q := by
  induction l with
  | nil => cases ha
  | cons b l ih =>
    rw [List.countP_cons, List.countP_cons]
    rcases List.mem_cons.mp ha with rfl | hmem
    · have hle : l.countP p ≤ l.countP q := List.countP_mono_left (fun x _ hx => himp x hx)
      rw [hpa, hqa]
      simp only [if_neg Bool.false_ne_true, if_pos rfl, if_true]
      omega
    · have hlt := ih hmem
      have hb : (if p b = true then 1 else 0) ≤ (if q b = true then 1 else 0) := by
        by_cases hpb : p b = true
        · simp [hpb, himp b hpb]
        · simp [hpb]
      omega

theorem rankOf_lt_of_dominates {L : LineMap} {M C : Int × RcLine}
    (hM : M ∈ L) (h : dominates M C = true) : rankOf L M < rankOf L C := by
  rcases dominates_iff.mp h with ⟨hseq, hid⟩ | ⟨-, hlen, -⟩
  · have hlen : M.2.station_ids.length = C.2.station_ids.length := by
      rcases hseq with h | h <;> simp [h]
    unfold rankOf
    rw [hlen]
    have hcnt : L.countP (fun X => decide (M.1 < X.1)) < L.countP (fun X => decide (C.1 < X.1)) := by
      refine countP_lt_countP_of_mem hM (by simp) (by simpa using hid) (fun X hX => ?_)
      simp only [decide_eq_true_eq] at hX ⊢
      exact lt_trans hid hX
    omega
  · unfold rankOf
    have h1 : L.countP (fun X => decide (M.1 < X.1)) ≤ L.length :=
      List.countP_le_length _
    nlinarith [Nat.zero_le (L.countP (fun X => decide (C.1 < X.1)))]

theorem exists_max_dominator {A : Int × RcLine} {L : LineMap} (h : Dominated A L) :
    ∃ M ∈ L, dominates A M = true ∧ ¬ Dominated M L := by
  obtain ⟨B, hB, hdom⟩ := h
  have hBD : B ∈ L.filter (fun X => dominates A X) := List.mem_filter.mpr ⟨hB, hdom⟩
  cases hargmax : (L.filter (fun X => dominates A X)).argmax (rankOf L) with
  | none =>
    rw [List.argmax_eq_none] at hargmax
    rw [hargmax] at hBD
    cases hBD
  | some M =>
    have hMopt : M ∈ (L.filter (fun X => dominates A X)).argmax (rankOf L) := by
      rw [hargmax]; rfl
    have hMD := List.argmax_mem hMopt
    have hML : M ∈ L := (List.mem_filter.mp hMD).1
    have hMdom : dominates A M = true := (List.mem_filter.mp hMD).2
    refine ⟨M, hML, hMdom, ?_⟩
    rintro ⟨C, hCL, hMC⟩
    have hCD : C ∈ L.filter (fun X => dominates A X) :=
      List.mem_filter.mpr ⟨hCL, dominates_trans hMdom hMC⟩
    exact List.not_lt_of_mem_argmax hCD hMopt (rankOf_lt_of_dominates hML hMC)

/-- The keep-predicate: an entry survives iff nothing in the original
container dominates it. -/
def keepB (L : LineMap) (A : Int × RcLine) : Bool := ! decide (Dominated A L)

theorem dedup_go_eq_filter (L : LineMap) :
    ∀ todo pre, L = pre ++ todo →
      dedup_go (pre.filter (keepB L)) todo = L.filter (keepB L) := by
  intro todo
  induction todo with
  | nil => intro pre hpre; simp [dedup_go, hpre]
  | cons A rest ih =>
    intro pre hpre
    have hdropiff : ((pre.filter (keepB L) ++ rest).any (fun B => dominates A B)) = true
        ↔ Dominated A L := by
      constructor
      · intro hany
        obtain ⟨B, hBmem, hBdom⟩ := List.any_eq_true.mp hany
        rcases List.mem_append.mp hBmem with hBpre | hBrest
        · exact ⟨B, by rw [hpre]; exact List.mem_append_left _ (List.mem_of_mem_filter hBpre),
            hBdom⟩
        · exact ⟨B, by rw [hpre]; exact List.mem_append_right _ (List.mem_cons_of_mem _ hBrest),
            hBdom⟩
      · intro hdomA
        obtain ⟨M, hML, hMdom, hMnd⟩ := exists_max_dominator hdomA
        rw [hpre] at hML
        refine List.any_eq_true.mpr ⟨M, ?_, hMdom⟩
        rcases List.mem_append.mp hML with hMpre | hMtodo
        · exact List.mem_append_left _
            (List.mem_filter.mpr ⟨hMpre, by simp [keepB, hMnd]⟩)
        · rcases List.mem_cons.mp hMtodo with rfl | hMrest
          · rw [dominates_irrefl] at hMdom; cases hMdom
          · exact List.mem_append_right _ hMrest
    rw [dedup_go]
    by_cases hdomA : Dominated A L
    · rw [if_pos (hdropiff.mpr hdomA)]
      have hfil : pre.filter (keepB L) = (pre ++ [A]).filter (keepB L) := by
        rw [List.filter_append]
        simp [keepB, hdomA]
      rw [hfil]
      exact ih (pre ++ [A]) (by rw [hpre, List.append_assoc]; rfl)
    · rw [if_neg (by rw [hdropiff]; exact hdomA)]
      have hfil : pre.filter (keepB L) ++ [A] = (pre ++ [A]).filter (keepB L) := by
        rw [List.filter_append]
        simp [keepB, hdomA]
      rw [hfil]
      exact ih (pre ++ [A]) (by rw [hpre, List.append_assoc]; rfl)

theorem remove_duplicate_lines_eq_filter (L : LineMap) :
    remove_duplicate_lines L = L.filter (keepB L) := by
  have h := dedup_go_eq_filter L L []
  simpa [remove_duplicate_lines] using h rfl

theorem mem_remove_duplicate_lines_iff {L : LineMap} {A : Int × RcLine} :
    A ∈ remove_duplicate_lines L ↔ A ∈ L ∧ ¬ Dominated A L := by
  rw [remove_duplicate_lines_eq_filter, List.mem_filter]
  simp [keepB]

/-! ### Claims C4 and C8: deduplicator correctness and order independence -/

/-- C4: after `remove_duplicate_lines` returns, for every remaining RC line
there is no other remaining line whose station sequence it equals (directly or
reversed), nor is any remaining line a nonempty strict contiguous infix of
another remaining line (directly or reversed); consequently running
`remove_duplicate_lines` again on its own output removes nothing. -/
theorem claim_C4_dedup_pairwise_free_and_idempotent (L : LineMap)
    (hids : (L.map Prod.fst).Nodup) :
    (∀ A ∈ remove_duplicate_lines L, ∀ B ∈ remove_duplicate_lines L, A ≠ B →
      ¬ (A.2.station_ids = B.2.station_ids ∨ A.2.station_ids = B.2.station_ids.reverse)
        ∧ ¬ SubSeq A.2.station_ids B.2.station_ids)
    ∧ remove_duplicate_lines (remove_duplicate_lines L) = remove_duplicate_lines L := by
  constructor
  · intro A hA B hB hne
    obtain ⟨hAL, hAnd⟩ := mem_remove_duplicate_lines_iff.mp hA
    obtain ⟨hBL, hBnd⟩ := mem_remove_duplicate_lines_iff.mp hB
    constructor
    · intro hseq
      have hidne : A.1 ≠ B.1 := fun heq =>
        hne (List.inj_on_of_nodup_map hids hAL hBL heq)
      rcases lt_or_gt_of_ne hidne with hlt | hgt
      · apply hBnd
        refine ⟨A, hAL, dominates_iff.mpr (Or.inl ⟨?_, hlt⟩)⟩
        rcases hseq with h | h
        · exact Or.inl h.symm
        · exact Or.inr (by rw [h]; simp)
      · exact hAnd ⟨B, hBL, dominates_iff.mpr (Or.inl ⟨hseq, hgt⟩)⟩
    · intro hsub
      exact hAnd ⟨B, hBL, dominates_iff.mpr (Or.inr hsub)⟩
  · rw [remove_duplicate_lines_eq_filter (remove_duplicate_lines L)]
    apply List.filter_eq_self.mpr
    intro A hA
    obtain ⟨hAL, hAnd⟩ := mem_remove_duplicate_lines_iff.mp hA
    have hnd : ¬ Dominated A (remove_duplicate_lines L) := by
      rintro ⟨B, hBR, hdom⟩
      exact hAnd ⟨B, (mem_remove_duplicate_lines_iff.mp hBR).1, hdom⟩
    simp [keepB, hnd]

/-- A concrete three-entry container for the C4 witness. -/
def dedupWitnessL : LineMap :=
  [(1, ⟨1, [7, 8, 9], false⟩), (2, ⟨2, [9, 8, 7], false⟩), (3, ⟨3, [8, 9], false⟩)]

/-- Witness for C4: the hypotheses hold at a concrete container. -/
theorem claim_C4_witness :
    ((dedupWitnessL.map Prod.fst).Nodup) ∧
    ((∀ A ∈ remove_duplicate_lines dedupWitnessL,
        ∀ B ∈ remove_duplicate_lines dedupWitnessL, A ≠ B →
      ¬ (A.2.station_ids = B.2.station_ids ∨ A.2.station_ids = B.2.station_ids.reverse)
        ∧ ¬ SubSeq A.2.station_ids B.2.station_ids)
    ∧ remove_duplicate_lines (remove_duplicate_lines dedupWitnessL)
        = remove_duplicate_lines dedupWitnessL) :=
  ⟨by decide, claim_C4_dedup_pairwise_free_and_idempotent dedupWitnessL (by decide)⟩

/-- C8: the collection of station sequences surviving `remove_duplicate_lines`
is the same for every iteration order of the underlying container: two runs of
the pass over permuted entry lists produce permuted (hence set-equal) surviving
station-sequence lists. -/
theorem claim_C8_dedup_order_independent (L1 L2 : LineMap) (hperm : L1.Perm L2) :
    ((remove_duplicate_lines L1).map (fun A => A.2.station_ids)).Perm
      ((remove_duplicate_lines L2).map (fun A => A.2.station_ids)) := by
  rw [remove_duplicate_lines_eq_filter, remove_duplicate_lines_eq_filter]
  have hcongr : L2.filter (keepB L2) = L2.filter (keepB L1) := by
    apply List.filter_congr
    intro A hA
    have hiff : Dominated A L2 ↔ Dominated A L1 := by
      constructor
      · rintro ⟨B, hB, h⟩
        exact ⟨B, hperm.mem_iff.mpr hB, h⟩
      · rintro ⟨B, hB, h⟩
        exact ⟨B, hperm.mem_iff.mp hB, h⟩
    unfold keepB
    rw [decide_eq_decide.mpr hiff]
  rw [hcongr]
  exact (hperm.filter (keepB L1)).map _

/-- Two orderings of the same two entries, for the C8 witness. -/
def dedupOrderA : LineMap := [(1, ⟨1, [7, 8], false⟩), (2, ⟨2, [8, 7], false⟩)]

/-- The same entries in the opposite iteration order. -/
def dedupOrderB : LineMap := [(2, ⟨2, [8, 7], false⟩), (1, ⟨1, [7, 8], false⟩)]

/-- Witness for C8: the permutation hypothesis holds at two concrete orders. -/
theorem claim_C8_witness :
    dedupOrderA.Perm dedupOrderB ∧
    ((remove_duplicate_lines dedupOrderA).map (fun A => A.2.station_ids)).Perm
      ((remove_duplicate_lines dedupOrderB).map (fun A => A.2.station_ids)) :=
  ⟨by decide, claim_C8_dedup_order_independent dedupOrderA dedupOrderB (by decide)⟩

/-! ### The geometry map model (geometry.h / geometry.cc) -/

/-- Point direction attribute (geometry.h `Point::Direction`). -/
inductive PDir
  | Orthogonal
  | Diagonal
deriving Repr, DecidableEq

/-- Point type attribute (geometry.h `Point::Type`). -/
inductive PType
  | Node
  | Station
deriving Repr, DecidableEq

/-- geometry.h `Point`. Positions are embedded as rationals; the only
geometric predicate the enumerator uses (`can_move_through`) is a sign test
of a dot product, exact on the rational inputs considered here. The unused
`name` string is omitted. -/
structure GPoint where
  id : Int
  size : ℚ
  pos : ℚ × ℚ
  dir : PDir
  ptype : PType
deriving Repr, DecidableEq

/-- geometry.h `Line` (the `name` string is omitted). -/
structure GLine where
  id : Int
  point_ids : List Int
  is_loop : Bool
  is_simple : Bool
  parent_id : Int
deriving Repr, DecidableEq

/-- geometry.h `StationGroup` (the `name` string is omitted). -/
structure SGroup where
  id : Int
  station_ids : List Int
deriving Repr, DecidableEq

/-- geometry.h `Map::Config`. `link_modes` is only consulted by the builder
steps outside this embedding and is omitted. -/
structure GConfig where
  max_length : Int
  max_rc_steps : Int
  auto_group_distance : ℚ
  merge_consecutive_duplicates : Bool
  optimize_segmentation : Bool
  max_iterations : Int
  friend_lines : List (Int × Int)
  merged_lines : List (Int × Int)
  segmented_lines : List (Int × Int)
deriving Repr, DecidableEq

/-- geometry.h `Map`. Each `std::unordered_map`/`std::unordered_set` becomes an
association list carrying one concrete iteration order; `point_to_group`
stores the pointed-to group id instead of a pointer. -/
structure GMap where
  config : GConfig
  width : ℚ
  height : ℚ
  points : List (Int × GPoint)
  lines : List (Int × GLine)
  station_groups : List (Int × SGroup)
  point_to_group : List (Int × Int)
deriving Repr, DecidableEq

/-- Association-list lookup: `unordered_map::at` / `find` (keys are unique in
the C++ containers; the first match is returned). -/
def afind {α : Type} (l : List (Int × α)) (k : Int) : Option α :=
  match l with
  | [] => none
  | kv :: rest => if kv.1 = k then some kv.2 else afind rest k

/-- Dot product of rational vectors (geometry.cc `Vec2::dot`). -/
def dotQ (a b : ℚ × ℚ) : ℚ := a.1 * b.1 + a.2 * b.2

/-- Vector difference (geometry.cc `Vec2::operator-`). -/
def subQ (a b : ℚ × ℚ) : ℚ × ℚ := (a.1 - b.1, a.2 - b.2)

/-- `Map::can_move_through` (geometry.cc 589-597): all three points must exist
and the dot product of the two step vectors must be nonnegative. -/
def can_move_through (m : GMap) (p1 p2 p3 : Int) : Bool :=
  match afind m.points p1, afind m.points p2, afind m.points p3 with
  | some a, some b, some c => decide (0 ≤ dotQ (subQ b.pos a.pos) (subQ c.pos b.pos))
  | _, _, _ => false

/-! ### The track graph (converter.cc 31-46, 120-182) -/

/-- converter.cc `Track`. -/
structure Track where
  point_id : Int
  line_id : Int
  index_in_line : Int
  forward : Bool
  is_end : Bool
  next_index : Int
deriving Repr, DecidableEq

/-- `Track::get_next_index` (converter.cc 39-41). -/
def Track.get_next_index (t : Track) : Int :=
  if t.next_index ≠ -1 then t.next_index
  else if t.forward then t.index_in_line + 1 else t.index_in_line - 1

/-- The tracks position `i` of a line contributes, in the push order of
converter.cc 129-181: forward, backward, loop wrap-around (backward at 0,
forward at the last index), and end tracks at the ends of non-loop lines. -/
def tracks_for_index (line_id : Int) (line : GLine) (i : ℕ) : List Track :=
  let pid := line.point_ids.getD i 0
  let n := line.point_ids.length
  (if i + 1 < n then [⟨pid, line_id, (i : Int), true, false, -1⟩] else [])
  ++ (if 0 < i then [⟨pid, line_id, (i : Int), false, false, -1⟩] else [])
  ++ (if i = 0 ∧ line.is_loop = true then [⟨pid, line_id, (i : Int), false, false, (n : Int) - 1⟩] else [])
  ++ (if i + 1 = n ∧ line.is_loop = true then [⟨pid, line_id, (i : Int), true, false, 0⟩] else [])
  ++ (if i = 0 ∧ line.is_loop = false then [⟨pid, line_id, (i : Int), false, true, -1⟩] else [])
  ++ (if i + 1 = n ∧ line.is_loop = false then [⟨pid, line_id, (i : Int), true, true, -1⟩] else [])

/-- All tracks of the map in generation order (converter.cc 125-182): lines in
container order, indices ascending; indices whose point id is absent from
`points` are skipped. -/
def all_tracks (m : GMap) : List Track :=
  m.lines.flatMap fun lv =>
    (List.range lv.2.point_ids.length).flatMap fun i =>
      if (afind m.points (lv.2.point_ids.getD i 0)).isSome
      then tracks_for_index lv.1 lv.2 i else []

/-- The per-point track vector `points[pid].tracks`: the global generation
order restricted to the tracks parked at `pid`. -/
def tracks_at (m : GMap) (pid : Int) : List Track :=
  (all_tracks m).filter fun t => t.point_id == pid

/-- The point id a track moves to:
`geomap.lines.at(line_id).point_ids[get_next_index()]`. Out-of-range access is
undefined behaviour in C++ and unreachable on generated tracks; modelled with
defaults. -/
def next_point_id (m : GMap) (t : Track) : Int :=
  match afind m.lines t.line_id with
  | some l => l.point_ids.getD t.get_next_index.toNat 0
  | none => 0

/-- Membership in `friend_lines` / `merged_lines`
(`unordered_set<pair<int,int>>::contains`). -/
def pair_mem (l : List (Int × Int)) (p : Int × Int) : Bool := l.contains p

/-- The admission test of the `next_tracks` candidate loop (converter.cc
205-224): same line at the next index admits same-direction or end tracks;
otherwise end tracks are rejected, merged lines admit unconditionally, and
friend lines admit when `can_move_through` accepts the turn. -/
def admits_track (m : GMap) (t : Track) (next_pid : Int) (c : Track) : Bool :=
  if c.line_id = t.line_id ∧ c.index_in_line = t.get_next_index then
    c.forward == t.forward || c.is_end
  else if c.is_end then false
  else if pair_mem m.config.merged_lines (t.line_id, c.line_id) then true
  else if pair_mem m.config.friend_lines (t.line_id, c.line_id) then
    can_move_through m t.point_id next_pid (next_point_id m c)
  else false

/-- The successor list before the end-track pruning (converter.cc 202-224). -/
def next_tracks_pre (m : GMap) (t : Track) : List Track :=
  if t.is_end then []
  else (tracks_at m (next_point_id m t)).filter (admits_track m t (next_point_id m t))

/-- `next_tracks` (converter.cc 201-232): prune all end tracks whenever more
than one successor was admitted. -/
def next_tracks (m : GMap) (t : Track) : List Track :=
  let result := next_tracks_pre m t
  if 1 < result.length then result.filter (fun c => !c.is_end) else result

/-! ### Route entries and the BFS enumeration (converter.cc 48-69, 234-304) -/

/-- converter.cc `RouteEntry`. -/
structure RouteEntry where
  tracks : List Track
  remaining_count : Int
deriving Repr, DecidableEq

/-- `RouteEntry::push_back` (converter.cc 52-64): append the track, decrement
the budget on Station points, then clamp by the per-line cap from
`segmented_lines` (or `max_length`). -/
def RouteEntry.push (e : RouteEntry) (t : Track) (m : GMap) (seg : List (Int × Int)) :
    RouteEntry :=
  let r1 := match afind m.points t.point_id with
    | some p => if p.ptype = PType.Station then e.remaining_count - 1 else e.remaining_count
    | none => e.remaining_count
  let cap := match afind seg t.line_id with
    | some s => s
    | none => m.config.max_length
  ⟨e.tracks ++ [t], min r1 cap⟩

/-- `RouteEntry::full` (converter.cc 66-68). -/
def RouteEntry.full (e : RouteEntry) : Bool := decide (e.remaining_count ≤ 0)

/-- The station-sequence fold shared by `add_line` and the simple-line branch
(converter.cc 189-197 and 245-252): keep Station points, substitute the group
id of grouped points, and collapse consecutive duplicates when
`merge_consecutive_duplicates` is set. -/
def station_push (m : GMap) (acc : List Int) (pid : Int) : List Int :=
  match afind m.points pid with
  | none => acc
  | some p =>
    if p.ptype = PType.Station then
      let sid := match afind m.point_to_group p.id with
        | some gid => gid
        | none => p.id
      if ¬ m.config.merge_consecutive_duplicates = true ∨ acc = [] ∨ ¬ acc.getLast? = some sid
      then acc ++ [sid] else acc
    else acc

/-- Station extraction over a point-id list. -/
def station_fold (m : GMap) (pids : List Int) : List Int :=
  pids.foldl (station_push m) []

/-- `add_line` (converter.cc 184-199): track lists shorter than 2 emit nothing;
otherwise a fresh RC line with the next sequential id and `is_loop = false`. -/
def add_line (m : GMap) (lines : LineMap) (tracks : List Track) : LineMap :=
  if tracks.length < 2 then lines
  else
    lines ++ [((lines.length : Int) + 1,
      ⟨(lines.length : Int) + 1, station_fold m (tracks.map Track.point_id), false⟩)]

/-- The simple-line shortcut (converter.cc 240-255): emit the line's stations
directly, carrying the source line's loop flag. -/
def emit_simple (m : GMap) (lines : LineMap) (line : GLine) : LineMap :=
  lines ++ [((lines.length : Int) + 1,
    ⟨(lines.length : Int) + 1, station_fold m line.point_ids, line.is_loop⟩)]

/-- Interior seed positions `interval, 2·interval, …` with `i + 1 < n`
(converter.cc 272-273). In C++ the counter is a `size_t`, so a negative
interval wraps to a huge start value and the loop body never runs; the builder
and the optimizer keep `interval ≥ 1` on all reachable inputs. -/
def interior_seed_indices (interval : Int) (n : ℕ) : List ℕ :=
  if interval ≤ 0 then []
  else (List.range n).filter fun i =>
    i % interval.toNat = 0 ∧ 0 < i ∧ i + 1 < n

/-- The empty route entry (`RouteEntry` default: remaining budget 65535,
converter.cc 50). -/
def emptyEntry : RouteEntry := ⟨[], 65535⟩

/-- The seeds one non-simple line pushes (converter.cc 257-281): one forward
entry at the front, one backward entry at the back, and for segmented lines a
forward and a backward entry at each interior multiple of
`segment_length − max_rc_steps`. -/
def line_seeds (m : GMap) (seg : List (Int × Int)) (line_id : Int) (line : GLine) :
    List RouteEntry :=
  let e1 := emptyEntry.push ⟨line.point_ids.headD 0, line_id, 0, true, false, -1⟩ m seg
  let e2 := emptyEntry.push
    ⟨line.point_ids.getLastD 0, line_id, (line.point_ids.length : Int) - 1, false, false, -1⟩ m seg
  match afind seg line_id with
  | none => [e1, e2]
  | some s =>
    [e1, e2] ++ (interior_seed_indices (s - m.config.max_rc_steps) line.point_ids.length).flatMap
      fun i =>
        [emptyEntry.push ⟨line.point_ids.getD i 0, line_id, (i : Int), true, false, -1⟩ m seg,
         emptyEntry.push ⟨line.point_ids.getD i 0, line_id, (i : Int), false, false, -1⟩ m seg]

/-- One step of the seeding loop of `get_lines` (converter.cc 236-282):
masked-out lines and lines with fewer than two points are skipped; simple
lines are emitted directly; all other lines enqueue their seeds. -/
def seed_step (m : GMap) (seg : List (Int × Int)) (mask : List Int)
    (st : LineMap × List RouteEntry) (lv : Int × GLine) : LineMap × List RouteEntry :=
  if ¬ (mask.isEmpty ∨ mask.contains lv.1) then st
  else if lv.2.point_ids.length < 2 then st
  else if lv.2.is_simple then (emit_simple m st.1 lv.2, st.2)
  else (st.1, st.2 ++ line_seeds m seg lv.1 lv.2)

/-- The seeding loop over the line container. -/
def seed_lines (m : GMap) (seg : List (Int × Int)) (mask : List Int) :
    LineMap × List RouteEntry :=
  m.lines.foldl (seed_step m seg mask) ([], [])

/-- A placeholder track (`entry.tracks.back()` is undefined in C++ on an empty
entry; every queued entry is nonempty). -/
def dummyTrack : Track := ⟨0, 0, 0, true, false, -1⟩

/-- The BFS loop of `get_lines` (converter.cc 285-299) with explicit fuel:
`none` means the fuel ran out with a nonempty queue, so a `some` result is
exactly the result of a terminating run of the C++ loop. -/
def bfs (m : GMap) (seg : List (Int × Int)) :
    ℕ → List RouteEntry → LineMap → Option LineMap
  | _, [], acc => some acc
  | 0, _ :: _, _ => none
  | fuel + 1, e :: rest, acc =>
    let nexts := next_tracks m (e.tracks.getLastD dummyTrack)
    if nexts.isEmpty || e.full then
      bfs m seg fuel rest (add_line m acc e.tracks)
    else
      bfs m seg fuel (rest ++ nexts.map fun t => e.push t m seg) acc

/-- `get_lines` (converter.cc 113-304): seed, search, deduplicate. The unused
`rcmap` parameter of the C++ signature is omitted. -/
def get_lines (m : GMap) (seg : List (Int × Int)) (mask : List Int) (fuel : ℕ) :
    Option LineMap :=
  (bfs m seg fuel (seed_lines m seg mask).2 (seed_lines m seg mask).1).map
    remove_duplicate_lines

/-! ### add_lines and the segmentation optimizer (converter.cc 306-418) -/

/-- The non-optimizing preparation of `segmented_lines` (converter.cc 308-313):
entries `≤ 0` are reset to `max_rc_steps << 1`. -/
def default_segmented (m : GMap) : List (Int × Int) :=
  m.config.segmented_lines.map fun kv =>
    if kv.2 ≤ 0 then (kv.1, 2 * m.config.max_rc_steps) else kv

/-- The optimizer preparation (converter.cc 321-327): strictly negative entries
are reset to `max_rc_steps << 1` (they join an optimizer group instead). -/
def optimizer_init_seg (m : GMap) : List (Int × Int) :=
  m.config.segmented_lines.map fun kv =>
    if kv.2 < 0 then (kv.1, 2 * m.config.max_rc_steps) else kv

/-- Append a line id to the group keyed by its negative segmentation value,
creating the group on first encounter (`seg_groups[group_key].push_back`). -/
def add_group (groups : List (Int × List Int)) (key lid : Int) : List (Int × List Int) :=
  match groups with
  | [] => [(key, [lid])]
  | g :: rest => if g.1 = key then (g.1, g.2 ++ [lid]) :: rest else g :: add_group rest key lid

/-- `seg_groups` (converter.cc 320-327): lines grouped by their strictly
negative segmentation values, groups in first-encounter order. -/
def seg_groups_of (seg : List (Int × Int)) : List (Int × List Int) :=
  seg.foldl (fun gs kv => if kv.2 < 0 then add_group gs kv.2 kv.1 else gs) []

/-- One pair-list sweep of the mask closure (converter.cc 347-358): every pair
whose first component is the dequeued line inserts its unseen second component
into the mask and the queue. -/
def collect_pairs (lid : Int) (pairs : List (Int × Int)) (mask q : List Int) :
    List Int × List Int :=
  pairs.foldl
    (fun st p =>
      if p.1 = lid ∧ ¬ st.1.contains p.2 = true then (st.1 ++ [p.2], st.2 ++ [p.2]) else st)
    (mask, q)

/-- The lines-mask closure BFS (converter.cc 340-359) with explicit fuel. -/
def mask_closure (m : GMap) : ℕ → List Int → List Int → Option (List Int)
  | 0, mask, q => if q.isEmpty then some mask else none
  | fuel + 1, mask, q =>
    match q with
    | [] => some mask
    | lid :: rest =>
      let s1 := collect_pairs lid m.config.friend_lines mask rest
      let s2 := collect_pairs lid m.config.merged_lines s1.1 s1.2
      mask_closure m fuel s2.1 s2.2

/-- `get_line_count` (converter.cc 362-365): the enumeration count under a
trial segmentation, restricted to the lines mask. -/
def get_line_count (m : GMap) (mask : List Int) (fuel : ℕ) (seg : List (Int × Int)) :
    Option Int :=
  (get_lines m seg mask fuel).map fun L => (L.length : Int)

/-- `temp_config[line_id] = new_val` for every line of a group
(converter.cc 393-397); group members are always existing keys. -/
def set_group (seg : List (Int × Int)) (lids : List Int) (v : Int) : List (Int × Int) :=
  seg.map fun kv => if lids.contains kv.1 then (kv.1, v) else kv

/-- The delta-trial loop for one group (converter.cc 387-405), threading
`(best_val, best_count, improved)`. Trials outside
`(max_rc_steps, 2·max_length)` are skipped. -/
def try_deltas (m : GMap) (mask : List Int) (fuel : ℕ) (seg : List (Int × Int))
    (lids : List Int) (current_val : Int) :
    List Int → Int × Int × Bool → Option (Int × Int × Bool)
  | [], st => some st
  | d :: rest, st =>
    let new_val := current_val + d
    if new_val ≤ m.config.max_rc_steps then
      try_deltas m mask fuel seg lids current_val rest st
    else if m.config.max_length * 2 ≤ new_val then
      try_deltas m mask fuel seg lids current_val rest st
    else
      match get_line_count m mask fuel (set_group seg lids new_val) with
      | none => none
      | some new_count =>
        if new_count < st.2.1 then
          try_deltas m mask fuel seg lids current_val rest (new_val, new_count, true)
        else
          try_deltas m mask fuel seg lids current_val rest st

/-- The per-group loop of one optimizer iteration (converter.cc 381-414),
threading `(segmented_lines, current_count, improved)`. -/
def opt_groups (m : GMap) (mask : List Int) (fuel : ℕ) (deltas : List Int) :
    List (Int × List Int) → List (Int × Int) × Int × Bool →
      Option (List (Int × Int) × Int × Bool)
  | [], st => some st
  | g :: rest, st =>
    let current_val := (afind st.1 (g.2.headD 0)).getD 0
    match try_deltas m mask fuel st.1 g.2 current_val deltas (current_val, st.2.1, st.2.2) with
    | none => none
    | some best =>
      if ¬ best.1 = current_val then
        opt_groups m mask fuel deltas rest (set_group st.1 g.2 best.1, best.2.1, best.2.2)
      else
        opt_groups m mask fuel deltas rest (st.1, st.2.1, best.2.2)

/-- The optimizer outer loop (converter.cc 368-415): while improved and under
`max_iterations`, try the wide delta set on the first two iterations and the
narrow one afterwards. The step counter is given fuel; one unit per iteration
suffices since `iteration` strictly increases. -/
def opt_loop (m : GMap) (mask : List Int) (fuel : ℕ) (groups : List (Int × List Int)) :
    ℕ → Int → List (Int × Int) → Int → Bool → Option (List (Int × Int) × Int)
  | 0, _, seg, current, _ => some (seg, current)
  | ifuel + 1, iteration, seg, current, improved =>
    if improved = true ∧ iteration < m.config.max_iterations then
      let deltas : List Int :=
        if iteration + 1 < 3 then [-11, -5, -2, 2, 5, 11] else [-5, -2, 2, 5]
      match opt_groups m mask fuel deltas groups (seg, current, false) with
      | none => none
      | some st => opt_loop m mask fuel groups ifuel (iteration + 1) st.1 st.2.1 st.2.2
    else some (seg, current)

/-- The initial lines mask: the union of all optimizer-touched line ids in
group order (converter.cc 335-343). -/
def mask_seed (m : GMap) : List Int :=
  (seg_groups_of m.config.segmented_lines).flatMap fun g => g.2

/-- `add_lines` (converter.cc 306-418). Without `optimize_segmentation` (or
without any negative entry) a single full enumeration; otherwise the optimizer
tunes the negative-entry groups against the mask-restricted count and finishes
with a full unmasked enumeration under the tuned segmentation. -/
def add_lines (m : GMap) (fuel : ℕ) : Option LineMap :=
  if ¬ m.config.optimize_segmentation = true then
    get_lines m (default_segmented m) [] fuel
  else if (seg_groups_of m.config.segmented_lines).isEmpty then
    get_lines m (optimizer_init_seg m) [] fuel
  else
    match mask_closure m fuel (mask_seed m) (mask_seed m) with
    | none => none
    | some mask =>
      match get_line_count m mask fuel (optimizer_init_seg m) with
      | none => none
      | some current0 =>
        match opt_loop m mask fuel (seg_groups_of m.config.segmented_lines)
            (m.config.max_iterations.toNat + 1) 0 (optimizer_init_seg m) current0 true with
        | none => none
        | some st => get_lines m st.1 [] fuel

/-! ### add_stations and convert_to_rc (converter.cc 7-29, 420-425) -/

/-- rc.h `Station`. -/
structure RcStation where
  id : Int
  norm_x : ℚ
  norm_y : ℚ
deriving Repr, DecidableEq

/-- `Map::group_pos` (geometry.cc 599-619): centroid of the group members that
exist in `points`; degenerate cases give the origin. -/
def group_pos (m : GMap) (gid : Int) : ℚ × ℚ :=
  match afind m.station_groups gid with
  | none => (0, 0)
  | some g =>
    let pts := g.station_ids.filterMap fun sid => (afind m.points sid).map fun p => p.pos
    if g.station_ids.isEmpty then (0, 0)
    else if pts.length = 0 then (0, 0)
    else ((pts.map Prod.fst).sum / (pts.length : ℚ), (pts.map Prod.snd).sum / (pts.length : ℚ))

/-- `Map::normalized_pos` (geometry.cc 621-623). -/
def normalized_pos (m : GMap) (p : ℚ × ℚ) : ℚ × ℚ := (p.1 / m.width, p.2 / m.height)

/-- `add_stations` (converter.cc 7-29): one RC station per station group, then
one per Station point that belongs to no group. -/
def add_stations (m : GMap) : List (Int × RcStation) :=
  (m.station_groups.map fun gv =>
    ((gv.1 : Int), ⟨gv.1, (normalized_pos m (group_pos m gv.1)).1,
      (normalized_pos m (group_pos m gv.1)).2⟩))
  ++ m.points.filterMap fun pv =>
    if pv.2.ptype = PType.Station ∧ ¬ (afind m.point_to_group pv.1).isSome = true then
      some ((pv.1 : Int), ⟨pv.1, (normalized_pos m pv.2.pos).1, (normalized_pos m pv.2.pos).2⟩)
    else none

/-- rc.h `Map`. -/
structure RcMap where
  stations : List (Int × RcStation)
  lines : LineMap
deriving Repr, DecidableEq

/-- `convert_to_rc` as defined in converter.cc 420-425. Note: converter.h
declares an additional `std::atomic<bool>* cancel_flag` parameter (default
null), but the definition in converter.cc neither receives nor reads any
cancellation flag, and no Cancelled error path exists in the converter. -/
def convert_to_rc (m : GMap) (fuel : ℕ) : Option RcMap :=
  (add_lines m fuel).map fun L => ⟨add_stations m, L⟩

/-- The call interface declared in converter.h line 9 (`cancel_flag` set iff
the atomic flag is observed true at any point of the run). The body is the
converter.cc definition, which ignores the flag. -/
def convert_to_rc_with_flag (m : GMap) (cancel_flag : Bool) (fuel : ℕ) : Option RcMap :=
  convert_to_rc m fuel

/-! ### Builder tail: loop refinement and simple-line classification
(geometry.cc 734, 1057-1112) -/

/-- The scanning loop of the loop-refinement step (geometry.cc 1061-1068):
indices from 1; the first return to `point_ids[0]` fixes the candidate period;
any later mismatch against `point_ids[i % period]` resets the period to 0 and
breaks. Fuel is the number of remaining indices. -/
def period_go (pids : List Int) : ℕ → ℕ → ℕ → ℕ
  | 0, _, period => period
  | fuel + 1, i, period =>
    if i < pids.length then
      if period = 0 ∧ pids.getD i 0 = pids.getD 0 0 then period_go pids fuel (i + 1) i
      else if ¬ period = 0 ∧ ¬ pids.getD i 0 = pids.getD (i % period) 0 then 0
      else period_go pids fuel (i + 1) period
    else period

/-- The period found by the refinement scan. -/
def find_period (pids : List Int) : ℕ := period_go pids pids.length 1 0

/-- Loop refinement for one line (geometry.cc 1057-1073): lines already
flagged as loops are skipped; a nonzero period declares a loop and truncates
the point list to `period + 1` entries. -/
def refine_line (l : GLine) : GLine :=
  if l.is_loop then l
  else if ¬ find_period l.point_ids = 0 then
    { l with is_loop := true, point_ids := l.point_ids.take (find_period l.point_ids + 1) }
  else l

/-- The duplicate-station scan of the simple-line check (geometry.cc
1096-1109), walking a prefix of the point ids with the set of Station ids seen
so far. -/
def dup_go (m : GMap) : List Int → List Int → Bool
  | _, [] => false
  | seen, pid :: rest =>
    match afind m.points pid with
    | some p =>
      if p.ptype = PType.Station then
        if seen.contains pid then true else dup_go m (seen ++ [pid]) rest
      else dup_go m seen rest
    | none => dup_go m seen rest

/-- The simple-line classification (geometry.cc 1077-1112): no segmentation
entry, no friend or merged pair mentioning the line, and no duplicate Station
id in the point list (ignoring the closing duplicate of a loop). -/
def compute_simple (m : GMap) (line_id : Int) (l : GLine) : Bool :=
  if (afind m.config.segmented_lines line_id).isSome then false
  else if m.config.friend_lines.any fun p => p.1 == line_id || p.2 == line_id then false
  else if m.config.merged_lines.any fun p => p.1 == line_id || p.2 == line_id then false
  else
    let limit := if l.is_loop then l.point_ids.length - 1 else l.point_ids.length
    ! dup_go m [] (l.point_ids.take limit)

/-- The builder steps that fix the flags the enumerator reads: the initial
loop flag from endpoint equality (geometry.cc 734), the loop-refinement pass
(geometry.cc 1057-1073), and the simple-line classification (geometry.cc
1077-1112). Point lists are taken as they stand after auxiliary-point
synthesis. -/
def finalize_lines (m : GMap) : GMap :=
  let step1 : (Int × GLine) → (Int × GLine) := fun lv =>
    let lp : Bool :=
      decide (2 ≤ lv.2.point_ids.length) && (lv.2.point_ids.headD 0 == lv.2.point_ids.getLastD 1)
    (lv.1, refine_line { lv.2 with is_loop := lp })
  let m1 : GMap := { m with lines := m.lines.map step1 }
  let step2 : (Int × GLine) → (Int × GLine) := fun lv =>
    (lv.1, { lv.2 with is_simple := compute_simple m1 lv.1 lv.2 })
  { m1 with lines := m1.lines.map step2 }

/-! ### Concrete maps used by the claim theorems -/

/-- The `Map::Config` defaults (geometry.h 80-85) with empty relation sets. -/
def defaultConfig : GConfig := ⟨128, 16, 25, true, false, 4, [], [], []⟩

/-- A Node point of size 1 on the orthogonal grid. -/
def nodePoint (i : Int) (x y : ℚ) : GPoint := ⟨i, 1, (x, y), PDir.Orthogonal, PType.Node⟩

/-- A Station point of size 1 on the orthogonal grid. -/
def staPoint (i : Int) (x y : ℚ) : GPoint := ⟨i, 1, (x, y), PDir.Orthogonal, PType.Station⟩

/-- A raw line record as loaded by the builder (flags are recomputed by
`finalize_lines`). -/
def rawLine (i : Int) (pids : List Int) : GLine := ⟨i, pids, false, false, -1⟩

/-- A map holding one straight two-Node line: both points are Nodes, so the
emitted simple line has an empty station list. The points are 100 apart, far
beyond the auto-group threshold, and the straight horizontal geometry needs no
auxiliary points. -/
def c2map : GMap :=
  finalize_lines
    ⟨defaultConfig, 1024, 1024,
     [(1, nodePoint 1 0 0), (2, nodePoint 2 100 0)],
     [(1, rawLine 1 [1, 2])],
     [], []⟩

/-- A map holding one loop line `[7, 7]` through a single Station. -/
def c6map : GMap :=
  finalize_lines
    ⟨defaultConfig, 1024, 1024,
     [(7, staPoint 7 0 0)],
     [(1, rawLine 1 [7, 7])],
     [], []⟩

/-! ### Generic invariants of the enumeration -/

/-- Every line of a line map satisfies `P` on its station sequence and `Q` on
the whole entry. -/
def LinesSat (P : List Int → Prop) (L : LineMap) : Prop :=
  ∀ lv ∈ L, P lv.2.station_ids

theorem linesSat_add_line {P : List Int → Prop} {m : GMap} {acc : LineMap}
    (hfold : ∀ pids, P (station_fold m pids)) (hacc : LinesSat P acc)
    (tracks : List Track) : LinesSat P (add_line m acc tracks) := by
  unfold add_line
  split
  · exact hacc
  · intro lv hlv
    rcases List.mem_append.mp hlv with h | h
    · exact hacc lv h
    · rcases List.mem_singleton.mp h with rfl
      exact hfold _

theorem linesSat_emit_simple {P : List Int → Prop} {m : GMap} {acc : LineMap}
    (hfold : ∀ pids, P (station_fold m pids)) (hacc : LinesSat P acc)
    (line : GLine) : LinesSat P (emit_simple m acc line) := by
  intro lv hlv
  rcases List.mem_append.mp hlv with h | h
  · exact hacc lv h
  · rcases List.mem_singleton.mp h with rfl
    exact hfold _

theorem linesSat_seed_fold {P : List Int → Prop} {m : GMap}
    (hfold : ∀ pids, P (station_fold m pids)) (seg : List (Int × Int)) (mask : List Int) :
    ∀ (ls : List (Int × GLine)) (st : LineMap × List RouteEntry), LinesSat P st.1 →
      LinesSat P (ls.foldl (seed_step m seg mask) st).1 := by
  intro ls
  induction ls with
  | nil => intro st hst; exact hst
  | cons lv rest ih =>
    intro st hst
    rw [List.foldl_cons]
    apply ih
    unfold seed_step
    split
    · exact hst
    split
    · exact hst
    split
    · exact linesSat_emit_simple hfold hst lv.2
    · exact hst

theorem linesSat_seed_lines {P : List Int → Prop} {m : GMap}
    (hfold : ∀ pids, P (station_fold m pids)) (seg : List (Int × Int)) (mask : List Int) :
    LinesSat P (seed_lines m seg mask).1 :=
  linesSat_seed_fold hfold seg mask m.lines ([], []) (by intro lv h; cases h)

theorem linesSat_bfs {P : List Int → Prop} {m : GMap} {seg : List (Int × Int)}
    (hfold : ∀ pids, P (station_fold m pids)) :
    ∀ (fuel : ℕ) (q : List RouteEntry) (acc out : LineMap), LinesSat P acc →
      bfs m seg fuel q acc = some out → LinesSat P out := by
  intro fuel
  induction fuel with
  | zero =>
    intro q acc out hacc hrun
    cases q with
    | nil => cases hrun; exact hacc
    | cons e rest => cases hrun
  | succ n ih =>
    intro q acc out hacc hrun
    cases q with
    | nil => cases hrun; exact hacc
    | cons e rest =>
      rw [bfs] at hrun
      split at hrun
      · exact ih _ _ _ (linesSat_add_line hfold hacc e.tracks) hrun
      · exact ih _ _ _ hacc hrun

theorem linesSat_remove_duplicate {P : List Int → Prop} {L : LineMap}
    (h : LinesSat P L) : LinesSat P (remove_duplicate_lines L) := fun lv hlv =>
  h lv (mem_remove_duplicate_lines_iff.mp hlv).1

/-- Every line that `get_lines` returns carries a station sequence of the
shape `station_fold m pids`, so any property of all such folds holds of every
output line. -/
theorem linesSat_get_lines {P : List Int → Prop} {m : GMap} {seg : List (Int × Int)}
    {mask : List Int} {fuel : ℕ} {L : LineMap}
    (hfold : ∀ pids, P (station_fold m pids))
    (h : get_lines m seg mask fuel = some L) : LinesSat P L := by
  unfold get_lines at h
  cases hb : bfs m seg fuel (seed_lines m seg mask).2 (seed_lines m seg mask).1 with
  | none => rw [hb] at h; cases h
  | some out =>
    rw [hb] at h
    cases h
    exact linesSat_remove_duplicate
      (linesSat_bfs hfold fuel _ _ _ (linesSat_seed_lines hfold seg mask) hb)

/-- `add_lines` always returns the result of some unmasked `get_lines` call. -/
theorem add_lines_eq_get_lines {m : GMap} {fuel : ℕ} {L : LineMap}
    (h : add_lines m fuel = some L) : ∃ seg, get_lines m seg [] fuel = some L := by
  unfold add_lines at h
  split at h
  · exact ⟨default_segmented m, h⟩
  split at h
  · exact ⟨optimizer_init_seg m, h⟩
  split at h
  · cases h
  split at h
  · cases h
  split at h
  · cases h
  exact ⟨_, h⟩

/-! ### Claim C1: the cancellation flag -/

/-- C1: the conversion entry point declared with a cancellation flag
(converter.h line 9) cannot observe the flag: the converter.cc definition of
`convert_to_rc` neither receives nor reads it and contains no Cancelled error
path, so the result is identical for any two flag values — in particular a set
flag never surfaces a Cancelled error. -/
theorem claim_C1_cancellation_flag_ignored (m : GMap) (f1 f2 : Bool) (fuel : ℕ) :
    convert_to_rc_with_flag m f1 fuel = convert_to_rc_with_flag m f2 fuel := rfl

/-! ### Claim C2: emitted station lists -/

/-- C2 counterexample: on the map holding one straight two-Node line, the
converter's output contains an RC line whose station list is empty, refuting
the claim that every output line has at least two stations. -/
theorem claim_C2_counterexample :
    ¬ ∀ R, convert_to_rc c2map 100 = some R →
      ∀ lv ∈ R.lines, 2 ≤ lv.2.station_ids.length := by
  intro h
  have h2 := h ⟨[], [(1, ⟨1, [], false⟩)]⟩ (by decide) (1, ⟨1, [], false⟩) (by decide)
  simp at h2

theorem chain_ne_station_fold {m : GMap}
    (hmerge : m.config.merge_consecutive_duplicates = true) :
    ∀ (pids : List Int) (acc : List Int), acc.Chain' (· ≠ ·) →
      (pids.foldl (station_push m) acc).Chain' (· ≠ ·)
  | [], acc, hacc => hacc
  | pid :: rest, acc, hacc => by
    rw [List.foldl_cons]
    apply chain_ne_station_fold hmerge rest
    unfold station_push
    cases afind m.points pid with
    | none => exact hacc
    | some p =>
      simp only
      split
      · split
        · rename_i hcond
          rw [List.chain'_append]
          refine ⟨hacc, List.chain'_singleton _, ?_⟩
          intro x hx y hy
          rcases hcond with hc | hc | hc
          · exact absurd hmerge hc
          · rw [hc] at hx; cases hx
          · intro hxy
            apply hc
            rw [List.head?_cons] at hy
            cases hy
            rw [hx, hxy]
        · exact hacc
      · exact hacc

/-- C2 amended: when `merge_consecutive_duplicates` is set, no RC line that
`get_lines` emits (whether via the simple-line shortcut or from a BFS track
list) has two equal consecutive station entries; the station list can however
be shorter than two entries, since the `add_line` guard bounds the number of
tracks rather than stations and the simple-line branch has no length guard. -/
theorem claim_C2_no_consecutive_duplicates {m : GMap} {seg : List (Int × Int)}
    {mask : List Int} {fuel : ℕ} {L : LineMap}
    (hmerge : m.config.merge_consecutive_duplicates = true)
    (h : get_lines m seg mask fuel = some L) :
    ∀ lv ∈ L, lv.2.station_ids.Chain' (· ≠ ·) :=
  linesSat_get_lines
    (fun pids => chain_ne_station_fold hmerge pids [] List.chain'_nil) h

/-- Witness for the amended C2 at the concrete two-Node map. -/
theorem claim_C2_witness :
    c2map.config.merge_consecutive_duplicates = true ∧
    get_lines c2map (default_segmented c2map) [] 100 = some [(1, ⟨1, [], false⟩)] ∧
    ∀ lv ∈ [((1 : Int), (⟨1, [], false⟩ : RcLine))], lv.2.station_ids.Chain' (· ≠ ·) :=
  ⟨by decide, by decide,
    @claim_C2_no_consecutive_duplicates c2map (default_segmented c2map) [] 100
      [(1, ⟨1, [], false⟩)] (by decide) (by decide)⟩

/-! ### Claim C9: loop flags of emitted lines -/

/-- Provenance of the loop flag: an output entry either carries
`is_loop = false` (as every `add_line` product does) or reproduces a simple
source line via the shortcut. -/
def LoopProvenance (m : GMap) (lv : Int × RcLine) : Prop :=
  lv.2.is_loop = false ∨
    ∃ sv ∈ m.lines, sv.2.is_simple = true ∧ lv.2.is_loop = sv.2.is_loop ∧
      lv.2.station_ids = station_fold m sv.2.point_ids

theorem loopProv_add_line {m : GMap} {acc : LineMap}
    (hacc : ∀ lv ∈ acc, LoopProvenance m lv) (tracks : List Track) :
    ∀ lv ∈ add_line m acc tracks, LoopProvenance m lv := by
  unfold add_line
  split
  · exact hacc
  · intro lv hlv
    rcases List.mem_append.mp hlv with h | h
    · exact hacc lv h
    · rcases List.mem_singleton.mp h with rfl
      exact Or.inl rfl

theorem loopProv_seed_fold {m : GMap} (seg : List (Int × Int)) (mask : List Int) :
    ∀ (ls : List (Int × GLine)), (∀ x ∈ ls, x ∈ m.lines) →
      ∀ (st : LineMap × List RouteEntry), (∀ lv ∈ st.1, LoopProvenance m lv) →
        ∀ lv ∈ (ls.foldl (seed_step m seg mask) st).1, LoopProvenance m lv := by
  intro ls
  induction ls with
  | nil => intro _ st hst; exact hst
  | cons x rest ih =>
    intro hls st hst
    rw [List.foldl_cons]
    refine ih (fun y hy => hls y (List.mem_cons_of_mem x hy)) _ ?_
    unfold seed_step
    split
    · exact hst
    split
    · exact hst
    split
    · rename_i hsimple
      intro lv hlv
      rcases List.mem_append.mp hlv with h | h
      · exact hst lv h
      · rcases List.mem_singleton.mp h with rfl
        exact Or.inr ⟨x, hls x (List.mem_cons_self x rest), by simpa using hsimple, rfl, rfl⟩
    · exact hst

theorem loopProv_bfs {m : GMap} {seg : List (Int × Int)} :
    ∀ (fuel : ℕ) (q : List RouteEntry) (acc out : LineMap),
      (∀ lv ∈ acc, LoopProvenance m lv) →
      bfs m seg fuel q acc = some out → ∀ lv ∈ out, LoopProvenance m lv := by
  intro fuel
  induction fuel with
  | zero =>
    intro q acc out hacc hrun
    cases q with
    | nil => cases hrun; exact hacc
    | cons e rest => cases hrun
  | succ n ih =>
    intro q acc out hacc hrun
    cases q with
    | nil => cases hrun; exact hacc
    | cons e rest =>
      rw [bfs] at hrun
      split at hrun
      · exact ih _ _ _ (loopProv_add_line hacc e.tracks) hrun
      · exact ih _ _ _ hacc hrun

/-- C9: every RC line produced from a BFS track list has `is_loop = false`, so
the serializer emits `IsNotLoop = true` for it even when the route traverses a
complete loop; an output line serialized with `IsNotLoop = false` can only
come from the simple-line shortcut, reproducing a simple source line's flag
and stations. -/
theorem claim_C9_only_simple_lines_loop {m : GMap} {seg : List (Int × Int)}
    {mask : List Int} {fuel : ℕ} {L : LineMap}
    (h : get_lines m seg mask fuel = some L) :
    ∀ lv ∈ L, serialized_is_not_loop lv.2 = false →
      ∃ sv ∈ m.lines, sv.2.is_simple = true ∧ lv.2.is_loop = sv.2.is_loop ∧
        lv.2.station_ids = station_fold m sv.2.point_ids := by
  intro lv hlv hser
  have hloop : lv.2.is_loop = true := by
    unfold serialized_is_not_loop at hser
    simpa using hser
  unfold get_lines at h
  cases hb : bfs m seg fuel (seed_lines m seg mask).2 (seed_lines m seg mask).1 with
  | none => rw [hb] at h; cases h
  | some out =>
    rw [hb] at h
    cases h
    have hseed : ∀ x ∈ (seed_lines m seg mask).1, LoopProvenance m x :=
      loopProv_seed_fold seg mask m.lines (fun _ hx => hx) ([], []) (by intro x hx; cases hx)
    have hout := loopProv_bfs fuel _ _ _ hseed hb
    have hprov := hout lv (mem_remove_duplicate_lines_iff.mp hlv).1
    rcases hprov with hfalse | hsome
    · rw [hloop] at hfalse; cases hfalse
    · exact hsome

/-- Witness for C9 at the single-loop-line map: the emitted loop line comes
from the simple shortcut. -/
theorem claim_C9_witness :
    get_lines c6map (default_segmented c6map) [] 100 = some [(1, ⟨1, [7], true⟩)] ∧
    (∀ lv ∈ [((1 : Int), (⟨1, [7], true⟩ : RcLine))], serialized_is_not_loop lv.2 = false →
      ∃ sv ∈ c6map.lines, sv.2.is_simple = true ∧ lv.2.is_loop = sv.2.is_loop ∧
        lv.2.station_ids = station_fold c6map sv.2.point_ids) :=
  ⟨by decide,
    @claim_C9_only_simple_lines_loop c6map (default_segmented c6map) [] 100
      [(1, ⟨1, [7], true⟩)] (by decide)⟩

/-! ### Claim C10: output lines only reference existing stations -/

/-- Builder invariant of the points container: `points[p.id] = p`
(geometry.cc 696). -/
def PointsWF (m : GMap) : Prop := ∀ kv ∈ m.points, kv.2.id = kv.1

/-- Builder invariant of the grouping containers: every group a point maps to
is stored in `station_groups` (maintained by `join_stations`,
geometry.cc 641-676). -/
def GroupsWF (m : GMap) : Prop :=
  ∀ kv ∈ m.point_to_group, (afind m.station_groups kv.2).isSome = true

theorem afind_mem {α : Type} {l : List (Int × α)} {k : Int} {v : α}
    (h : afind l k = some v) : (k, v) ∈ l := by
  induction l with
  | nil => cases h
  | cons kv rest ih =>
    unfold afind at h
    split at h
    · rename_i heq
      cases h
      rw [← heq]
      exact List.mem_cons_self _ _
    · exact List.mem_cons_of_mem _ (ih h)

/-- The ids present in the RC station output. -/
def station_keys (m : GMap) : List Int := (add_stations m).map Prod.fst

theorem group_id_mem_station_keys {m : GMap} {gid : Int}
    (h : (afind m.station_groups gid).isSome = true) : gid ∈ station_keys m := by
  cases hfind : afind m.station_groups gid with
  | none => rw [hfind] at h; cases h
  | some g =>
    have hmem := afind_mem hfind
    unfold station_keys add_stations
    rw [List.map_append]
    apply List.mem_append_left
    rw [List.map_map]
    exact List.mem_map.mpr ⟨(gid, g), hmem, rfl⟩

theorem ungrouped_mem_station_keys {m : GMap} {pid : Int} {p : GPoint}
    (hfind : afind m.points pid = some p) (hsta : p.ptype = PType.Station)
    (hnog : afind m.point_to_group pid = none) : pid ∈ station_keys m := by
  unfold station_keys add_stations
  rw [List.map_append]
  apply List.mem_append_right
  rw [List.map_filterMap]
  apply List.mem_filterMap.mpr
  refine ⟨(pid, p), afind_mem hfind, ?_⟩
  simp only
  rw [if_pos ⟨hsta, by rw [hnog]; simp⟩]
  rfl

theorem station_push_mem_keys {m : GMap} (hp : PointsWF m) (hg : GroupsWF m)
    (acc : List Int) (pid : Int) (hacc : ∀ s ∈ acc, s ∈ station_keys m) :
    ∀ s ∈ station_push m acc pid, s ∈ station_keys m := by
  intro s hs
  unfold station_push at hs
  cases hfind : afind m.points pid with
  | none => rw [hfind] at hs; exact hacc s hs
  | some p =>
    rw [hfind] at hs
    simp only at hs
    split at hs
    · rename_i hsta
      have hpid : p.id = pid := hp (pid, p) (afind_mem hfind)
      cases hgrp : afind m.point_to_group p.id with
      | some gid =>
        rw [hgrp] at hs
        split at hs
        · rcases List.mem_append.mp hs with h | h
          · exact hacc s h
          · rw [List.mem_singleton.mp h]
            exact group_id_mem_station_keys (hg (p.id, gid) (afind_mem hgrp))
        · exact hacc s hs
      | none =>
        rw [hgrp] at hs
        split at hs
        · rcases List.mem_append.mp hs with h | h
          · exact hacc s h
          · rcases List.mem_singleton.mp h with rfl
            rw [hpid]
            rw [hpid] at hgrp
            exact ungrouped_mem_station_keys hfind hsta hgrp
        · exact hacc s hs
    · exact hacc s hs

theorem station_fold_mem_keys {m : GMap} (hp : PointsWF m) (hg : GroupsWF m) :
    ∀ (pids : List Int) (acc : List Int), (∀ s ∈ acc, s ∈ station_keys m) →
      ∀ s ∈ pids.foldl (station_push m) acc, s ∈ station_keys m
  | [], acc, hacc => hacc
  | pid :: rest, acc, hacc => by
    rw [List.foldl_cons]
    exact station_fold_mem_keys hp hg rest _ (station_push_mem_keys hp hg acc pid hacc)

/-- C10: every station id appearing in any RC line of the converter's output
is a key of the output station set (the group ids and ungrouped Station point
ids inserted by `add_stations`), given the builder invariants that points are
keyed by their ids and grouped points map to stored groups. -/
theorem claim_C10_line_stations_exist {m : GMap} {fuel : ℕ} {R : RcMap}
    (hp : PointsWF m) (hg : GroupsWF m)
    (h : convert_to_rc m fuel = some R) :
    ∀ lv ∈ R.lines, ∀ s ∈ lv.2.station_ids, s ∈ R.stations.map Prod.fst := by
  unfold convert_to_rc at h
  cases ha : add_lines m fuel with
  | none => rw [ha] at h; cases h
  | some L =>
    rw [ha] at h
    cases h
    obtain ⟨seg, hget⟩ := add_lines_eq_get_lines ha
    intro lv hlv s hs
    exact @linesSat_get_lines (fun sids => ∀ x ∈ sids, x ∈ station_keys m) m seg [] fuel L
      (fun pids => station_fold_mem_keys hp hg pids [] (by intro x hx; cases hx))
      hget lv hlv s hs

/-- A grouped three-station map for the C10 witness: points 1 and 2 share
group 1; point 3 is ungrouped. -/
def c10map : GMap :=
  finalize_lines
    ⟨defaultConfig, 1024, 1024,
     [(1, staPoint 1 0 0), (2, staPoint 2 100 0), (3, staPoint 3 200 0)],
     [(1, rawLine 1 [1, 2, 3])],
     [(1, ⟨1, [1, 2]⟩)],
     [(1, 1), (2, 1)]⟩

/-- The conversion result on the grouped map. -/
def c10result : RcMap := ⟨add_stations c10map, [(1, ⟨1, [1, 3], false⟩)]⟩

/-- Witness for C10 at the grouped map. -/
theorem claim_C10_witness :
    PointsWF c10map ∧ GroupsWF c10map ∧
    convert_to_rc c10map 100 = some c10result ∧
    ∀ lv ∈ c10result.lines, ∀ s ∈ lv.2.station_ids,
      s ∈ c10result.stations.map Prod.fst :=
  ⟨by unfold PointsWF; decide, by unfold GroupsWF; decide, by rfl,
    @claim_C10_line_stations_exist c10map 100 c10result
      (by unfold PointsWF; decide) (by unfold GroupsWF; decide) (by rfl)⟩

/-! ### Claim C7: the next_tracks admission rule -/

/-- A two-line map with a merged pair: line 10 is `[1, 2]`, line 20 is
`[3, 2]`, and `(10, 20)` is in `merged_lines` (stored symmetrically, as the
builder does). -/
def c7map : GMap :=
  ⟨⟨128, 16, 25, true, false, 4, [], [(10, 20), (20, 10)], []⟩,
   1024, 1024,
   [(1, staPoint 1 0 0), (2, staPoint 2 100 0), (3, staPoint 3 100 100)],
   [(10, ⟨10, [1, 2], false, false, -1⟩), (20, ⟨20, [3, 2], false, false, -1⟩)],
   [], []⟩

/-- The forward track of line 10 at its first point. -/
def c7t : Track := ⟨1, 10, 0, true, false, -1⟩

/-- The forward end track of line 20 parked at the shared point 2. -/
def c7end : Track := ⟨2, 20, 1, true, true, -1⟩

/-- C7 counterexample: the end track of the merged line 20 parked at the
shared point is not admitted by the candidate loop of `next_tracks`, although
the pair is in `merged_lines` — the admission for tracks on a different line
is not "exactly when merged or friend-with-turn": end tracks are rejected
outright before those tests. -/
theorem claim_C7_counterexample :
    ¬ ∀ c ∈ tracks_at c7map (next_point_id c7map c7t), c.line_id ≠ c7t.line_id →
      (c ∈ next_tracks_pre c7map c7t ↔
        (pair_mem c7map.config.merged_lines (c7t.line_id, c.line_id) = true ∨
         (pair_mem c7map.config.friend_lines (c7t.line_id, c.line_id) = true ∧
          can_move_through c7map c7t.point_id (next_point_id c7map c7t)
            (next_point_id c7map c) = true))) := by
  intro h
  have hmem : c7end ∈ tracks_at c7map (next_point_id c7map c7t) := by decide
  have hin := (h c7end hmem (by decide)).mpr (Or.inl (by decide))
  exact absurd hin (by decide)

/-- C7 amended: for a non-end track `t`, a candidate `c` parked at the next
point and lying on a different line is admitted by the `next_tracks` candidate
loop exactly when `c` is not an end track and the pair is merged, or friends
with an admissible turn; and the returned successor set drops every end track
whenever more than one candidate was admitted. -/
theorem claim_C7_admission_rule (m : GMap) (t c : Track)
    (hten : t.is_end = false) (hne : c.line_id ≠ t.line_id) :
    (c ∈ next_tracks_pre m t ↔
      (c ∈ tracks_at m (next_point_id m t) ∧ c.is_end = false ∧
        (pair_mem m.config.merged_lines (t.line_id, c.line_id) = true ∨
         (pair_mem m.config.friend_lines (t.line_id, c.line_id) = true ∧
          can_move_through m t.point_id (next_point_id m t) (next_point_id m c) = true))))
    ∧ next_tracks m t =
        (if 1 < (next_tracks_pre m t).length
         then (next_tracks_pre m t).filter (fun x => !x.is_end)
         else next_tracks_pre m t) := by
  constructor
  · unfold next_tracks_pre
    rw [if_neg (by simp [hten])]
    rw [List.mem_filter]
    constructor
    · rintro ⟨hmem, hadm⟩
      refine ⟨hmem, ?_⟩
      unfold admits_track at hadm
      rw [if_neg (by intro hc; exact hne hc.1)] at hadm
      by_cases hend : c.is_end = true
      · rw [if_pos hend] at hadm; cases hadm
      · rw [if_neg hend] at hadm
        refine ⟨by simpa using hend, ?_⟩
        by_cases hmer : pair_mem m.config.merged_lines (t.line_id, c.line_id) = true
        · exact Or.inl hmer
        · rw [if_neg hmer] at hadm
          by_cases hfr : pair_mem m.config.friend_lines (t.line_id, c.line_id) = true
          · rw [if_pos hfr] at hadm
            exact Or.inr ⟨hfr, hadm⟩
          · rw [if_neg hfr] at hadm; cases hadm
    · rintro ⟨hmem, hend, hcond⟩
      refine ⟨hmem, ?_⟩
      unfold admits_track
      rw [if_neg (by intro hc; exact hne hc.1)]
      rw [if_neg (by simp [hend])]
      rcases hcond with hmer | ⟨hfr, hturn⟩
      · rw [if_pos hmer]
      · by_cases hmer : pair_mem m.config.merged_lines (t.line_id, c.line_id) = true
        · rw [if_pos hmer]
        · rw [if_neg hmer, if_pos hfr]
          exact hturn
  · rfl

/-- The backward (inward) track of line 20 at the shared point 2, which the
merged pair does admit. -/
def c7inward : Track := ⟨2, 20, 1, false, false, -1⟩

/-- Witness for the amended C7 at the merged two-line map. -/
theorem claim_C7_witness :
    c7t.is_end = false ∧ c7inward.line_id ≠ c7t.line_id ∧
    ((c7inward ∈ next_tracks_pre c7map c7t ↔
      (c7inward ∈ tracks_at c7map (next_point_id c7map c7t) ∧ c7inward.is_end = false ∧
        (pair_mem c7map.config.merged_lines (c7t.line_id, c7inward.line_id) = true ∨
         (pair_mem c7map.config.friend_lines (c7t.line_id, c7inward.line_id) = true ∧
          can_move_through c7map c7t.point_id (next_point_id c7map c7t)
            (next_point_id c7map c7inward) = true))))
    ∧ next_tracks c7map c7t =
        (if 1 < (next_tracks_pre c7map c7t).length
         then (next_tracks_pre c7map c7t).filter (fun x => !x.is_end)
         else next_tracks_pre c7map c7t)) :=
  ⟨by decide, by decide, claim_C7_admission_rule c7map c7t c7inward (by decide) (by decide)⟩

/-! ### Claim C5: the loop-refinement period scan -/

/-- The claim's period property: a positive `p < length` with
`point_ids[i] = point_ids[i mod p]` for every index. -/
def valid_period (pids : List Int) (p : ℕ) : Prop :=
  0 < p ∧ p < pids.length ∧ ∀ i < pids.length, pids.getD i 0 = pids.getD (i % p) 0

instance (pids : List Int) (p : ℕ) : Decidable (valid_period pids p) := by
  unfold valid_period; infer_instance

/-- The candidate the scan actually locks onto: the first index `p ≥ 1` whose
entry returns to `point_ids[0]`. -/
def first_return (pids : List Int) (p : ℕ) : Prop :=
  0 < p ∧ p < pids.length ∧ pids.getD p 0 = pids.getD 0 0 ∧
    ∀ j < p, 0 < j → ¬ pids.getD j 0 = pids.getD 0 0

instance (pids : List Int) (p : ℕ) : Decidable (first_return pids p) := by
  unfold first_return; infer_instance

theorem period_go_locked_valid {pids : List Int} {p : ℕ} (hp : 0 < p)
    (hall : ∀ j < pids.length, p < j → pids.getD j 0 = pids.getD (j % p) 0) :
    ∀ (fuel i : ℕ), p < i → pids.length ≤ i + fuel → period_go pids fuel i p = p := by
  intro fuel
  induction fuel with
  | zero => intro i hpi hlen; rfl
  | succ n ih =>
    intro i hpi hlen
    rw [period_go]
    by_cases hi : i < pids.length
    · rw [if_pos hi]
      rw [if_neg (by rintro ⟨h0, -⟩; omega)]
      rw [if_neg (by rintro ⟨-, hne⟩; exact hne (hall i hi hpi))]
      exact ih (i + 1) (by omega) (by omega)
    · rw [if_neg hi]

theorem period_go_locked_invalid {pids : List Int} {p : ℕ} (hp : 0 < p)
    {j0 : ℕ} (hj0len : j0 < pids.length) (hne : ¬ pids.getD j0 0 = pids.getD (j0 % p) 0) :
    ∀ (fuel i : ℕ), p < i → i ≤ j0 → pids.length ≤ i + fuel →
      period_go pids fuel i p = 0 := by
  intro fuel
  induction fuel with
  | zero => intro i hpi hij0 hlen; omega
  | succ n ih =>
    intro i hpi hij0 hlen
    rw [period_go]
    rw [if_pos (by omega)]
    rw [if_neg (by rintro ⟨h0, -⟩; omega)]
    by_cases heq : pids.getD i 0 = pids.getD (i % p) 0
    · rw [if_neg (by rintro ⟨-, hne2⟩; exact hne2 heq)]
      have hij : i < j0 := by
        rcases Nat.lt_or_ge i j0 with h | h
        · exact h
        · exfalso
          have hieq : i = j0 := by omega
          rw [hieq] at heq
          exact hne heq
      exact ih (i + 1) (by omega) (by omega) (by omega)
    · rw [if_pos ⟨by omega, heq⟩]

theorem period_go_scan_valid {pids : List Int} {p : ℕ} (hfr : first_return pids p)
    (hall : ∀ j < pids.length, p < j → pids.getD j 0 = pids.getD (j % p) 0) :
    ∀ (fuel i : ℕ), 0 < i → i ≤ p → pids.length ≤ i + fuel →
      period_go pids fuel i 0 = p := by
  obtain ⟨hp, hplen, hret, hmin⟩ := hfr
  intro fuel
  induction fuel with
  | zero => intro i h0 hip hlen; omega
  | succ n ih =>
    intro i h0 hip hlen
    rw [period_go]
    rw [if_pos (by omega)]
    rcases Nat.lt_or_ge i p with hlt | hge
    · rw [if_neg (by rintro ⟨-, heq⟩; exact hmin i hlt h0 heq)]
      rw [if_neg (by rintro ⟨h1, -⟩; exact h1 rfl)]
      exact ih (i + 1) (by omega) (by omega) (by omega)
    · have hip2 : i = p := by omega
      subst hip2
      rw [if_pos ⟨rfl, hret⟩]
      exact period_go_locked_valid hp hall n (i + 1) (by omega) (by omega)

theorem period_go_scan_invalid {pids : List Int} {p : ℕ} (hfr : first_return pids p)
    {j0 : ℕ} (hj0len : j0 < pids.length) (hpj0 : p < j0)
    (hne : ¬ pids.getD j0 0 = pids.getD (j0 % p) 0) :
    ∀ (fuel i : ℕ), 0 < i → i ≤ p → pids.length ≤ i + fuel →
      period_go pids fuel i 0 = 0 := by
  obtain ⟨hp, hplen, hret, hmin⟩ := hfr
  intro fuel
  induction fuel with
  | zero => intro i h0 hip hlen; omega
  | succ n ih =>
    intro i h0 hip hlen
    rw [period_go]
    rw [if_pos (by omega)]
    rcases Nat.lt_or_ge i p with hlt | hge
    · rw [if_neg (by rintro ⟨-, heq⟩; exact hmin i hlt h0 heq)]
      rw [if_neg (by rintro ⟨h1, -⟩; exact h1 rfl)]
      exact ih (i + 1) (by omega) (by omega) (by omega)
    · have hip2 : i = p := by omega
      subst hip2
      rw [if_pos ⟨rfl, hret⟩]
      exact period_go_locked_invalid hp hj0len hne n (i + 1) (by omega) (by omega) (by omega)

theorem period_go_no_return {pids : List Int}
    (h : ∀ j, 0 < j → j < pids.length → ¬ pids.getD j 0 = pids.getD 0 0) :
    ∀ (fuel i : ℕ), 0 < i → period_go pids fuel i 0 = 0 := by
  intro fuel
  induction fuel with
  | zero => intro i h0; rfl
  | succ n ih =>
    intro i h0
    rw [period_go]
    by_cases hi : i < pids.length
    · rw [if_pos hi]
      rw [if_neg (by rintro ⟨-, heq⟩; exact h i h0 hi heq)]
      rw [if_neg (by rintro ⟨h1, -⟩; exact h1 rfl)]
      exact ih (i + 1) (by omega)
    · rw [if_neg hi]

theorem first_return_unique {pids : List Int} {p q : ℕ}
    (hp : first_return pids p) (hq : first_return pids q) : p = q := by
  rcases Nat.lt_trichotomy p q with h | h | h
  · exact absurd hp.2.2.1 (hq.2.2.2 p h hp.1)
  · exact h
  · exact absurd hq.2.2.1 (hp.2.2.2 q h hq.1)

theorem valid_period_iff_tail {pids : List Int} {p : ℕ} (hfr : first_return pids p) :
    valid_period pids p ↔
      ∀ j < pids.length, p < j → pids.getD j 0 = pids.getD (j % p) 0 := by
  obtain ⟨hp, hplen, hret, -⟩ := hfr
  constructor
  · intro hv j hjlen hpj
    exact hv.2.2 j hjlen
  · intro htail
    refine ⟨hp, hplen, fun i hilen => ?_⟩
    rcases Nat.lt_trichotomy i p with h | h | h
    · rw [Nat.mod_eq_of_lt h]
    · subst h
      rw [Nat.mod_self]
      exact hret
    · exact htail i hilen h

theorem find_period_of_first_return {pids : List Int} {p : ℕ}
    (hfr : first_return pids p) :
    find_period pids = if valid_period pids p then p else 0 := by
  by_cases hv : valid_period pids p
  · rw [if_pos hv]
    exact period_go_scan_valid hfr ((valid_period_iff_tail hfr).mp hv)
      pids.length 1 (by omega) hfr.1 (by omega)
  · rw [if_neg hv]
    rw [valid_period_iff_tail hfr] at hv
    push_neg at hv
    obtain ⟨j0, hj0len, hpj0, hne⟩ := hv
    exact period_go_scan_invalid hfr hj0len hpj0 hne pids.length 1 (by omega) hfr.1
      (by omega)

theorem find_period_of_no_first_return {pids : List Int}
    (h : ¬ ∃ p, first_return pids p) : find_period pids = 0 := by
  by_cases hret : ∃ j, 0 < j ∧ j < pids.length ∧ pids.getD j 0 = pids.getD 0 0
  · exfalso
    obtain ⟨j, hj⟩ := hret
    have hex : ∃ k, 0 < k ∧ k < pids.length ∧ pids.getD k 0 = pids.getD 0 0 := ⟨j, hj⟩
    have hfind := Nat.find_spec hex
    refine h ⟨Nat.find hex, hfind.1, hfind.2.1, hfind.2.2, ?_⟩
    intro k hklt hk0 heq
    exact Nat.find_min hex hklt ⟨hk0, by omega, heq⟩
  · push_neg at hret
    exact period_go_no_return (fun j hj0 hjlen heq => (hret j hj0 hjlen) heq)
      pids.length 1 (by omega)

/-- The line `[5, 5, 6, 5, 5, 6]`: its smallest valid period in the claim's
sense is 3, but the scan locks onto the first return at index 1, finds the
mismatch at index 2, and gives up. -/
def c5line : GLine := ⟨9, [5, 5, 6, 5, 5, 6], false, false, -1⟩

/-- C5 counterexample: the line `[5, 5, 6, 5, 5, 6]` has a smallest valid
period (p = 3) in the claim's sense, yet the refinement step does not declare
it a loop — the scan only tries the first index returning to `point_ids[0]`. -/
theorem claim_C5_counterexample :
    ¬ ((refine_line c5line).is_loop = true ↔
        ∃ p, valid_period c5line.point_ids p ∧
          ∀ q, q < p → ¬ valid_period c5line.point_ids q) := by
  intro h
  have hloop := h.mpr ⟨3, by decide, by decide⟩
  exact absurd hloop (by decide)

/-- C5 amended: for a line not already flagged as a loop, the refinement step
declares it a loop and truncates the point list to `p + 1` entries exactly
when `p`, the first index `≥ 1` whose entry equals `point_ids[0]`, exists and
moreover `point_ids[i] = point_ids[i mod p]` holds at every index; a larger
valid period whose first return is spoiled is not found. -/
theorem claim_C5_refinement_rule (l : GLine) (hnl : l.is_loop = false) :
    (∀ p, first_return l.point_ids p → valid_period l.point_ids p →
      refine_line l = { l with is_loop := true, point_ids := l.point_ids.take (p + 1) })
    ∧ ((¬ ∃ p, first_return l.point_ids p ∧ valid_period l.point_ids p) →
        refine_line l = l) := by
  constructor
  · intro p hfr hv
    have hfp : find_period l.point_ids = p := by
      rw [find_period_of_first_return hfr, if_pos hv]
    have hp0 := hfr.1
    unfold refine_line
    rw [if_neg (by rw [hnl]; exact Bool.false_ne_true)]
    rw [hfp]
    rw [if_pos (show ¬ p = 0 by omega)]
  · intro hno
    have hfp : find_period l.point_ids = 0 := by
      by_cases hfr : ∃ p, first_return l.point_ids p
      · obtain ⟨p, hp⟩ := hfr
        rw [find_period_of_first_return hp]
        rw [if_neg (fun hv => hno ⟨p, hp, hv⟩)]
      · exact find_period_of_no_first_return hfr
    unfold refine_line
    rw [if_neg (by rw [hnl]; exact Bool.false_ne_true)]
    rw [hfp]
    rw [if_neg (not_not_intro rfl)]

/-- A refinable line for the C5 witness: `[1, 2, 1, 2, 1]` has first return
`p = 2`, which is a valid period, so refinement truncates it to `[1, 2, 1]`. -/
def c5wline : GLine := ⟨8, [1, 2, 1, 2, 1], false, false, -1⟩

/-- Witness for the amended C5 at a concrete refinable line. -/
theorem claim_C5_witness :
    c5wline.is_loop = false ∧
    ((∀ p, first_return c5wline.point_ids p → valid_period c5wline.point_ids p →
      refine_line c5wline =
        { c5wline with is_loop := true, point_ids := c5wline.point_ids.take (p + 1) })
    ∧ ((¬ ∃ p, first_return c5wline.point_ids p ∧ valid_period c5wline.point_ids p) →
        refine_line c5wline = c5wline)) :=
  ⟨by decide, claim_C5_refinement_rule c5wline (by decide)⟩

/-! ### Claim C6: the loop of length two -/

theorem afind_cons_self {α : Type} (k : Int) (v : α) (rest : List (Int × α)) :
    afind ((k, v) :: rest) k = some v := by
  unfold afind
  rw [if_pos rfl]

theorem afind_nil {α : Type} (k : Int) : afind ([] : List (Int × α)) k = none := rfl

/-- C6 counterexample: on the map holding one loop line `[7, 7]` through a
Station, the enumerator emits one RC line (via the simple-line shortcut),
refuting the claim that a loop of length two emits nothing. -/
theorem claim_C6_counterexample :
    ¬ ∀ L, get_lines c6map (default_segmented c6map) [] 100 = some L → L = [] := by
  intro h
  have hone := h [(1, ⟨1, [7], true⟩)] (by decide)
  exact absurd hone (by decide)

/-- The family of single-line maps whose one line is the loop `[a, a]` through
the Station `a`. -/
def loop2Map (a : Int) (x y : ℚ) : GMap :=
  finalize_lines
    ⟨defaultConfig, 1024, 1024, [(a, staPoint a x y)], [(1, rawLine 1 [a, a])], [], []⟩

theorem loop2Map_eval (a : Int) (x y : ℚ) :
    loop2Map a x y =
      ⟨defaultConfig, 1024, 1024, [(a, staPoint a x y)],
       [(1, ⟨1, [a, a], true, true, -1⟩)], [], []⟩ := by
  unfold loop2Map finalize_lines
  simp [refine_line, compute_simple, dup_go, afind_cons_self, afind_nil, rawLine, staPoint,
    defaultConfig, List.contains]

/-- C6 amended: a map whose one line is the loop `[a, a]` through a Station
`a` (no friend, merged or segmentation entries) classifies the line as simple
and the enumerator emits exactly one RC line from it via the simple-line
shortcut — station list `[a]` after duplicate collapsing, loop flag set —
rather than emitting nothing. -/
theorem claim_C6_loop2_emits_one_line (a : Int) (x y : ℚ) (fuel : ℕ) :
    get_lines (loop2Map a x y) (default_segmented (loop2Map a x y)) [] fuel =
      some [(1, ⟨1, [a], true⟩)] := by
  rw [loop2Map_eval]
  unfold get_lines seed_lines seed_step emit_simple station_fold station_push bfs
  simp [afind_cons_self, afind_nil, defaultConfig, staPoint, default_segmented,
    remove_duplicate_lines, dedup_go]

/-! ### Claim C3: the segmentation optimizer -/

/-- The optimizer counterexample map: line 1 (points 1-6, all Stations, in one
optimizer group via the negative entry) crossed against four simple cover
lines, each holding one 3-window of line 1 between two private stations.
`max_rc_steps` is overridden to 1, so the default group value is 2. -/
def c3map : GMap :=
  finalize_lines
    ⟨⟨128, 1, 25, true, true, 4, [], [], [(1, -1)]⟩, 2048, 2048,
     [(1, staPoint 1 0 0), (2, staPoint 2 100 0), (3, staPoint 3 200 0),
      (4, staPoint 4 300 0), (5, staPoint 5 400 0), (6, staPoint 6 500 0),
      (11, staPoint 11 1000 1000), (12, staPoint 12 1100 1000),
      (13, staPoint 13 1200 1000), (14, staPoint 14 1300 1000),
      (21, staPoint 21 1000 2000), (22, staPoint 22 1100 2000),
      (23, staPoint 23 1200 2000), (24, staPoint 24 1300 2000)],
     [(1, rawLine 1 [1, 2, 3, 4, 5, 6]),
      (2, rawLine 2 [11, 1, 2, 3, 21]),
      (3, rawLine 3 [12, 2, 3, 4, 22]),
      (4, rawLine 4 [13, 3, 4, 5, 23]),
      (5, rawLine 5 [14, 4, 5, 6, 24])],
     [], []⟩

/-- The optimizer's final output on `c3map`: the four cover lines plus the
whole of line 1 under the tuned segment length 7. -/
def c3optLines : LineMap :=
  [(1, ⟨1, [11, 1, 2, 3, 21], false⟩), (2, ⟨2, [12, 2, 3, 4, 22], false⟩),
   (3, ⟨3, [13, 3, 4, 5, 23], false⟩), (4, ⟨4, [14, 4, 5, 6, 24], false⟩),
   (5, ⟨5, [1, 2, 3, 4, 5, 6], false⟩)]

/-- The default full run on `c3map`: every 3-window of line 1 is a strict
infix of a cover line, so only the four cover lines survive deduplication. -/
def c3defLines : LineMap :=
  [(1, ⟨1, [11, 1, 2, 3, 21], false⟩), (2, ⟨2, [12, 2, 3, 4, 22], false⟩),
   (3, ⟨3, [13, 3, 4, 5, 23], false⟩), (4, ⟨4, [14, 4, 5, 6, 24], false⟩)]

/-- C3 counterexample: on `c3map` the optimizer's final unmasked enumeration
has 5 RC lines while the full enumeration with the optimizer-group entry left
at the default `2·max_rc_steps` has only 4 — the claimed inequality fails,
because the optimizer minimizes the mask-restricted count while the final and
reference runs are unmasked and deduplicate against the unmasked lines. -/
theorem claim_C3_counterexample :
    ¬ ∀ Lopt Ldef, add_lines c3map 300 = some Lopt →
      get_lines c3map (optimizer_init_seg c3map) [] 300 = some Ldef →
      Lopt.length ≤ Ldef.length := by
  intro h
  have hle := h c3optLines c3defLines (by decide) (by decide)
  exact absurd hle (by decide)

theorem try_deltas_invariant (m : GMap) (mask : List Int) (fuel : ℕ)
    (seg : List (Int × Int)) (lids : List Int) (current_val : Int) :
    ∀ (deltas : List Int) (st res : Int × Int × Bool),
      try_deltas m mask fuel seg lids current_val deltas st = some res →
      res.2.1 ≤ st.2.1 ∧
        (res.1 = st.1 ∧ res.2.1 = st.2.1 ∨
          get_line_count m mask fuel (set_group seg lids res.1) = some res.2.1) := by
  intro deltas
  induction deltas with
  | nil =>
    intro st res h
    cases h
    exact ⟨le_refl _, Or.inl ⟨rfl, rfl⟩⟩
  | cons d rest ih =>
    intro st res h
    rw [try_deltas] at h
    split at h
    · exact ih st res h
    split at h
    · exact ih st res h
    split at h
    · cases h
    · rename_i nc hglc
      split at h
      · rename_i hlt
        obtain ⟨hle, hor⟩ := ih _ res h
        refine ⟨le_trans hle (le_of_lt hlt), ?_⟩
        rcases hor with ⟨h1, h2⟩ | h2
        · right
          rw [h1, h2]
          exact hglc
        · right
          exact h2
      · exact ih st res h

theorem opt_groups_invariant (m : GMap) (mask : List Int) (fuel : ℕ) (deltas : List Int) :
    ∀ (groups : List (Int × List Int)) (st res : List (Int × Int) × Int × Bool),
      get_line_count m mask fuel st.1 = some st.2.1 →
      opt_groups m mask fuel deltas groups st = some res →
      get_line_count m mask fuel res.1 = some res.2.1 ∧ res.2.1 ≤ st.2.1 := by
  intro groups
  induction groups with
  | nil =>
    intro st res hst h
    cases h
    exact ⟨hst, le_refl _⟩
  | cons g rest ih =>
    intro st res hst h
    simp only [opt_groups] at h
    split at h
    · cases h
    · rename_i best htd
      obtain ⟨hle, hor⟩ := try_deltas_invariant m mask fuel st.1 g.2 _ _ _ best htd
      split at h
      · rename_i hne
        rcases hor with ⟨h1, -⟩ | h2
        · exact absurd h1 hne
        · obtain ⟨hres, hresle⟩ := ih _ res h2 h
          exact ⟨hres, le_trans hresle hle⟩
      · obtain ⟨hres, hresle⟩ := ih (st.1, st.2.1, best.2.2) res hst h
        exact ⟨hres, hresle⟩

/-- C3 amended: the optimizer never worsens the cost it actually tracks — if
the outer loop started from a segmentation whose mask-restricted enumeration
count is `current`, then it returns a segmentation whose mask-restricted count
it verified, and that count is at most `current`. (The final unmasked run of
`add_lines` can still produce more lines than the unmasked default run, as the
counterexample map shows.) -/
theorem claim_C3_optimizer_masked_count_bound (m : GMap) (mask : List Int)
    (fuel : ℕ) (groups : List (Int × List Int)) :
    ∀ (ifuel : ℕ) (iteration : Int) (seg : List (Int × Int)) (current : Int)
      (improved : Bool) (res : List (Int × Int) × Int),
      get_line_count m mask fuel seg = some current →
      opt_loop m mask fuel groups ifuel iteration seg current improved = some res →
      get_line_count m mask fuel res.1 = some res.2 ∧ res.2 ≤ current := by
  intro ifuel
  induction ifuel with
  | zero =>
    intro iteration seg current improved res hst h
    cases h
    exact ⟨hst, le_refl _⟩
  | succ n ih =>
    intro iteration seg current improved res hst h
    simp only [opt_loop] at h
    split at h
    · split at h
      · cases h
      · rename_i st2 hog
        obtain ⟨h2, h2le⟩ := opt_groups_invariant m mask fuel _ groups (seg, current, false)
          st2 hst hog
        obtain ⟨h3, h3le⟩ := ih (iteration + 1) st2.1 st2.2.1 st2.2.2 res h2 h
        exact ⟨h3, le_trans h3le h2le⟩
    · cases h
      exact ⟨hst, le_refl _⟩

/-- Witness for the amended C3 at the concrete optimizer run on `c3map`:
starting from masked count 4 at the default segmentation, the loop returns
segment length 7 with verified masked count 1 ≤ 4. -/
theorem claim_C3_witness :
    get_line_count c3map [1] 300 [(1, 2)] = some 4 ∧
    opt_loop c3map [1] 300 [(-1, [1])] 5 0 [(1, 2)] 4 true = some ([(1, 7)], 1) ∧
    (get_line_count c3map [1] 300 (([(1, 7)], (1 : Int)) : List (Int × Int) × Int).1
        = some (([(1, 7)], (1 : Int)) : List (Int × Int) × Int).2
      ∧ (([(1, 7)], (1 : Int)) : List (Int × Int) × Int).2 ≤ 4) :=
  ⟨by decide, by decide,
    claim_C3_optimizer_masked_count_bound c3map [1] 300 [(-1, [1])] 5 0 [(1, 2)] 4 true
      ([(1, 7)], 1) (by decide) (by decide)⟩

end RailchessRC
